import Mathlib

/-!
Verification development for the events-and-bookings data-access layer.

The embedded code consists of:
- the slug generator, date normalizer and time normalizer of
  `src/database/event.model.ts`;
- the Event pre-save validation/normalization hook of the same file
  (required-field, mode-enum and list checks, merged from the two schema
  variants present in the file);
- the Booking pre-save hooks of `src/unnamed/part_000` (both variants:
  the unconditional one and the isNew/isModified-guarded one);
- the cached connection manager `connectDB` of `src/unnamed/part_002`,
  modelled as an explicit event-loop step machine (code between two
  `await` points runs atomically on the JS event loop).

Characters are treated through their code points (`Char.toNat`); JavaScript
string primitives (`trim`, `toLowerCase`, regular-expression tests) are
embedded on the ASCII/code-point level, matching ECMA-262 semantics for the
character sets the regular expressions of the source mention.
-/

/-- Code points matched by the ECMA-262 whitespace class `\s` (also the set
removed by `String.prototype.trim`): tab, line feed, vertical tab, form feed,
carriage return, space, no-break space, ogham space mark, the en/em-space
range U+2000..U+200A, line separator, paragraph separator, narrow no-break
space, medium mathematical space, ideographic space, and the BOM. -/
def isJsWs (c : Char) : Bool :=
  decide (c.toNat = 9 ∨ c.toNat = 10 ∨ c.toNat = 11 ∨ c.toNat = 12 ∨ c.toNat = 13 ∨
    c.toNat = 32 ∨ c.toNat = 160 ∨ c.toNat = 5760 ∨ (8192 ≤ c.toNat ∧ c.toNat ≤ 8202) ∨
    c.toNat = 8232 ∨ c.toNat = 8233 ∨ c.toNat = 8239 ∨ c.toNat = 8287 ∨
    c.toNat = 12288 ∨ c.toNat = 65279)

/-- Drop leading and trailing JS whitespace from a character list. -/
def trimList (l : List Char) : List Char :=
  ((l.dropWhile isJsWs).reverse.dropWhile isJsWs).reverse

/-- Model of JavaScript `String.prototype.trim`. -/
def trimJS (s : String) : String := String.mk (trimList s.data)

/-- Model of JavaScript `String.prototype.toLowerCase` on one character,
restricted to the ASCII range: `A`-`Z` maps to `a`-`z`, everything else is
kept.  (The full Unicode lowering differs only on characters that the slug
generator replaces by a hyphen anyway, and the mode strings compared against
the enum are ASCII.) -/
def jsCharToLower (c : Char) : Char :=
  if 65 ≤ c.toNat ∧ c.toNat ≤ 90 then Char.ofNat (c.toNat + 32) else c

/-- Model of JavaScript `String.prototype.toLowerCase` (ASCII fragment). -/
def jsToLower (s : String) : String := String.mk (s.data.map jsCharToLower)

/-- The character class `[a-z0-9]` of the slug generator's replacement
regular expression. -/
def isAlnumLower (c : Char) : Bool :=
  decide ((97 ≤ c.toNat ∧ c.toNat ≤ 122) ∨ (48 ≤ c.toNat ∧ c.toNat ≤ 57))

/-- `replace(/[^a-z0-9]+/g, '-')`: every maximal run of characters outside
`[a-z0-9]` becomes a single `'-'`.  The boolean flag records whether the
previous character was part of such a run (so the run emits only one
hyphen). -/
def collapseAux : List Char → Bool → List Char
  | [], _ => []
  | c :: cs, inRun =>
    if isAlnumLower c then c :: collapseAux cs false
    else if inRun then collapseAux cs true
    else '-' :: collapseAux cs true

/-- `replace(/^-+|-+$/g, '')`: strip every leading and trailing hyphen. -/
def stripHyphens (l : List Char) : List Char :=
  ((l.dropWhile (fun c => c == '-')).reverse.dropWhile (fun c => c == '-')).reverse

/-- `generateSlug` of `src/database/event.model.ts` (lines 24-31):
`title.toString().trim().toLowerCase().replace(/[^a-z0-9]+/g,
'-').replace(/^-+|-+$/g, '')`.  (The second variant of the file, lines
178-184, lowercases before trimming; the two orders agree because lowering
fixes whitespace.) -/
def generateSlug (title : String) : String :=
  String.mk (stripHyphens (collapseAux ((trimJS title).data.map jsCharToLower) false))

/-- The character `'0' + n` of a decimal digit `n ≤ 9`. -/
def digitCh (n : Nat) : Char := Char.ofNat (48 + n)

/-- Fuel-driven decimal printing helper (the fuel makes the recursion
structural; `natToDigits` supplies enough fuel). -/
def natToDigitsAux : Nat → Nat → List Char
  | 0, _ => []
  | f + 1, n => if n < 10 then [digitCh n] else natToDigitsAux f (n / 10) ++ [digitCh (n % 10)]

/-- The decimal digit string of a natural number, as produced by JavaScript
`String(n)` (template-literal interpolation) for integers. -/
def natToDigits (n : Nat) : List Char := natToDigitsAux (n + 1) n

/-- `String(n).padStart(2, '0')`: the decimal digits of `n`, left-padded
with `'0'` to length two (a no-op once `n` has two digits). -/
def padTwoL (n : Nat) : List Char :=
  if n < 10 then '0' :: natToDigits n else natToDigits n

/-- Specification-side zero-padded two-digit numeral (for `n ≤ 99`). -/
def twoDig (n : Nat) : List Char := [digitCh (n / 10), digitCh (n % 10)]

/-- The decimal-digit character class `\d` (equivalently `[0-9]`). -/
def isDigitC (c : Char) : Prop := 48 ≤ c.toNat ∧ c.toNat ≤ 57

instance (c : Char) : Decidable (isDigitC c) := by unfold isDigitC; infer_instance

/-- The test `/^([01]\d|2[0-3]):([0-5]\d)$/.test(trimmed)` of
`normalizeTime`: an already-normalized 24-hour `HH:mm` string. -/
def is24h (l : List Char) : Bool :=
  match l with
  | [h1, h2, c, m1, m2] =>
    decide (c.toNat = 58 ∧
      (((h1.toNat = 48 ∨ h1.toNat = 49) ∧ isDigitC h2) ∨
        (h1.toNat = 50 ∧ 48 ≤ h2.toNat ∧ h2.toNat ≤ 51)) ∧
      (48 ≤ m1.toNat ∧ m1.toNat ≤ 53) ∧ isDigitC m2)
  | _ => false

/-- The hour candidates of the 12-hour group `(1[0-2]|0?\d)`, in the order
a backtracking regular-expression engine tries them: `1[0-2]` first, then
`0?\d` with the optional `0` present, then with it absent.  Each candidate
carries the numeric value `parseInt` would produce and the unconsumed
remainder. -/
def hourCands (l : List Char) : List (Nat × List Char) :=
  (match l with
   | c1 :: c2 :: rest =>
     (if c1.toNat = 49 ∧ 48 ≤ c2.toNat ∧ c2.toNat ≤ 50 then
        [(10 + (c2.toNat - 48), rest)] else [])
       ++ (if c1.toNat = 48 ∧ isDigitC c2 then [(c2.toNat - 48, rest)] else [])
   | _ => []) ++
  (match l with
   | c1 :: rest => if isDigitC c1 then [(c1.toNat - 48, rest)] else []
   | _ => [])

/-- The remainder of the 12-hour pattern after the hour group:
`:([0-5]\d)\s*([AaPp][Mm])\s*$`.  Returns the two minute characters and
whether the meridiem is PM. -/
def tailParse (l : List Char) : Option (Char × Char × Bool) :=
  match l with
  | c :: m1 :: m2 :: rest =>
    if c.toNat = 58 ∧ 48 ≤ m1.toNat ∧ m1.toNat ≤ 53 ∧ isDigitC m2 then
      match rest.dropWhile isJsWs with
      | ca :: cm :: tail =>
        if (ca.toNat = 65 ∨ ca.toNat = 97 ∨ ca.toNat = 80 ∨ ca.toNat = 112) ∧
            (cm.toNat = 77 ∨ cm.toNat = 109) ∧ tail.all isJsWs = true then
          some (m1, m2, decide (ca.toNat = 80 ∨ ca.toNat = 112))
        else none
      | _ => none
    else none
  | _ => none

/-- The full 12-hour match
`/^\s*(1[0-2]|0?\d):([0-5]\d)\s*([AaPp][Mm])\s*$/.exec(trimmed)`:
skip leading whitespace, try the hour alternatives in backtracking order,
and require the rest of the pattern on the remainder. -/
def twelveHourParse (l : List Char) : Option (Nat × Char × Char × Bool) :=
  (hourCands (l.dropWhile isJsWs)).findSome? fun hr =>
    (tailParse hr.2).map fun t => (hr.1, t.1, t.2.1, t.2.2)

/-- The `InvalidTime` failure of the time normalizer
(`throw new Error('Invalid event time format')`). -/
inductive TimeErr where
  | invalidTime
deriving DecidableEq, Repr

/-- `normalizeTime` of `src/database/event.model.ts` (lines 47-74): trim;
return 24-hour `HH:mm` input unchanged; convert a 12-hour `h:mm AM/PM`
match (`hours += 12` for PM hours other than 12, `hours = 0` for 12 AM,
zero-padded with the captured minute text appended); otherwise fail. -/
def normalizeTime (time : String) : Except TimeErr String :=
  let trimmed := trimJS time
  if is24h trimmed.data then .ok trimmed
  else
    match twelveHourParse trimmed.data with
    | some (h, m1, m2, pm) =>
      let h1 := if pm = true ∧ h ≠ 12 then h + 12 else h
      let h2 := if pm = false ∧ h1 = 12 then 0 else h1
      .ok (String.mk (padTwoL h2 ++ ':' :: [m1, m2]))
    | none => .error .invalidTime

/-- The `InvalidDate` failure of the date normalizer
(`throw new Error('Invalid event date')`). -/
inductive DateErr where
  | invalidDate
deriving DecidableEq, Repr

/-- Proleptic-Gregorian leap-year rule used by ECMAScript time values. -/
def isLeapYear (y : Nat) : Bool :=
  decide (y % 4 = 0 ∧ (y % 100 ≠ 0 ∨ y % 400 = 0))

/-- Days in a month of the proleptic Gregorian calendar. -/
def daysInMonth (y m : Nat) : Nat :=
  if m = 2 then (if isLeapYear y then 29 else 28)
  else if m = 4 ∨ m = 6 ∨ m = 9 ∨ m = 11 then 30 else 31

/-- Model of `new Date(string)` restricted to the ECMA-262 Date Time String
Format date-only production `YYYY-MM-DD` (four year digits, month `01`-`12`,
day valid for the month; such strings denote UTC midnight, and engines
reject in-grammar strings whose day overflows the month).  Strings outside
this grammar fall back to implementation-defined parsing that the claims
never exercise, so they are mapped to the invalid date.  The UTC component
accessors `getUTCFullYear`/`getUTCMonth`/`getUTCDate` recover exactly the
three parsed fields for every date in this range, so the parse returns the
fields themselves. -/
def parseISODate (s : String) : Option (Nat × Nat × Nat) :=
  match s.data with
  | [y1, y2, y3, y4, s1, mo1, mo2, s2, d1, d2] =>
    if isDigitC y1 ∧ isDigitC y2 ∧ isDigitC y3 ∧ isDigitC y4 ∧
        s1.toNat = 45 ∧ isDigitC mo1 ∧ isDigitC mo2 ∧ s2.toNat = 45 ∧
        isDigitC d1 ∧ isDigitC d2 then
      let y := (y1.toNat - 48) * 1000 + (y2.toNat - 48) * 100 +
        (y3.toNat - 48) * 10 + (y4.toNat - 48)
      let mo := (mo1.toNat - 48) * 10 + (mo2.toNat - 48)
      let d := (d1.toNat - 48) * 10 + (d2.toNat - 48)
      if 1 ≤ mo ∧ mo ≤ 12 ∧ 1 ≤ d ∧ d ≤ daysInMonth y mo then some (y, mo, d) else none
    else none
  | _ => none

/-- `normalizeDate` of `src/database/event.model.ts` (lines 34-44): parse,
then format `` `${year}-${month.padStart(2,'0')}-${day.padStart(2,'0')}` ``
from the UTC components — note the year is interpolated without padding. -/
def normalizeDate (date : String) : Except DateErr String :=
  match parseISODate date with
  | some (y, mo, d) => .ok (String.mk (natToDigits y ++ '-' :: (padTwoL mo ++ '-' :: padTwoL d)))
  | none => .error .invalidDate

/-- The Event document fields validated and normalized by the pre-save
hook (`IEvent` minus the system-managed timestamps; `_id` plays no role in
the hook). -/
structure EventDoc where
  title : String
  slug : String
  description : String
  overview : String
  image : String
  venue : String
  location : String
  date : String
  time : String
  mode : String
  audience : String
  agenda : List String
  organizer : String
  tags : List String
deriving Repr, DecidableEq

/-- The failure taxonomy of Event persistence: `assertNonEmpty` throws
naming the field, the schema enum rejects a bad `mode`, the hook and the
schema validators reject empty `agenda`/`tags`, and the two normalizers'
failures are surfaced by the hook. -/
inductive EventErr where
  | requiredFieldMissing (field : String)
  | invalidEnumValue
  | emptyListField (field : String)
  | invalidDate
  | invalidTime
deriving DecidableEq, Repr

/-- The required string fields asserted non-empty by the pre-save hook
(lines 109-117 of `src/database/event.model.ts`), in source order. -/
def requiredFields (e : EventDoc) : List (String × String) :=
  [("title", e.title), ("description", e.description), ("overview", e.overview),
   ("image", e.image), ("venue", e.venue), ("location", e.location),
   ("mode", e.mode), ("audience", e.audience), ("organizer", e.organizer)]

/-- The `enum` values of the `mode` path (second schema variant, lines
280-283). -/
def modeValues : List String := ["online", "offline", "hybrid"]

/-- The validation part of Event persistence, merging the checks the two
schema variants run before a write: the hook's `assertNonEmpty` calls in
source order, then the schema-level checks of the second variant — the
`mode` enum (whose path carries `lowercase: true`, so the membership test
sees the lowercased value) and the non-empty `agenda`/`tags` validators
(also enforced by the first variant's hook). -/
def validateEvent (e : EventDoc) : Except EventErr Unit :=
  match (requiredFields e).find? (fun p => trimJS p.2 == "") with
  | some p => .error (.requiredFieldMissing p.1)
  | none =>
    if jsToLower e.mode ∈ modeValues then
      if e.agenda = [] then .error (.emptyListField "agenda")
      else if e.tags = [] then .error (.emptyListField "tags")
      else .ok ()
    else .error .invalidEnumValue

/-- The mongoose `isModified` observations the hook branches on. -/
structure ModFlags where
  title : Bool
  date : Bool
  time : Bool
deriving Repr, DecidableEq

/-- The Event pre-save hook (first variant, lines 106-145): validate, then
`if (this.isModified('title') || !this.slug) this.slug = generateSlug(...)`
(the falsy test on the string `slug` is emptiness), then normalize `date`
and `time` exactly when modified, propagating the normalizers' failures. -/
def preSaveHook (m : ModFlags) (e : EventDoc) : Except EventErr EventDoc :=
  match validateEvent e with
  | .error err => .error err
  | .ok _ =>
    let slug := if m.title || e.slug == "" then generateSlug e.title else e.slug
    match (if m.date then normalizeDate e.date else .ok e.date) with
    | .error _ => .error .invalidDate
    | .ok date =>
      match (if m.time then normalizeTime e.time else .ok e.time) with
      | .error _ => .error .invalidTime
      | .ok time => .ok { e with slug := slug, date := date, time := time }

/-- The Booking document fields the hooks inspect; mongoose `ObjectId`
identities are modelled as naturals. -/
structure BookingDoc where
  eventId : Nat
  email : String
deriving Repr, DecidableEq

/-- The stored `email` after the schema's `trim: true` and
`lowercase: true` setters. -/
def storedEmail (b : BookingDoc) : String := jsToLower (trimJS b.email)

/-- The language of `EMAIL_REGEX = /^[^\s@]+@[^\s@]+\.[^\s@]+$/`: no
whitespace anywhere, exactly one `@` (both surrounding parts non-empty,
which the split into exactly two `@`-free parts captures), and the domain
part decomposes as `p ++ "." ++ q` with `p`, `q` non-empty — equivalently
it has a dot that is neither its first nor its last character. -/
def emailMatch (l : List Char) : Bool :=
  l.all (fun c => !isJsWs c) &&
    (match l.splitOn '@' with
     | [lp, dom] => !lp.isEmpty && !dom.isEmpty && dom.tail.dropLast.contains '.'
     | _ => false)

/-- Failures of the first Booking pre-save hook (`src/unnamed/part_000`,
lines 36-53): a malformed email, a confirmed-absent Event, or the raw
store error that an `Event.exists` rejection propagates through the
`catch`. -/
inductive BookingErrA (ε : Type) where
  | invalidEmail
  | danglingReference
  | storeError (err : ε)
deriving Repr

/-- The first Booking pre-save hook (`src/unnamed/part_000`, lines 36-53):
validate the email shape, then unconditionally confirm the referenced
Event exists.  `store` models `Event.exists({_id})`: `.ok true` when a
document exists, `.ok false` when none does, `.error` when the query
itself fails. -/
def bookingPreSaveAlways {ε : Type} (store : Nat → Except ε Bool) (b : BookingDoc) :
    Except (BookingErrA ε) Unit :=
  if emailMatch (storedEmail b).data then
    match store b.eventId with
    | .error err => .error (.storeError err)
    | .ok false => .error .danglingReference
    | .ok true => .ok ()
  else .error .invalidEmail

/-- Failures of the second Booking pre-save hook (`src/unnamed/part_000`,
lines 109-124): the confirmed-absent `DanglingReference` versus the
`ReferenceCheckFailed` wrapper for a failing existence query. -/
inductive BookingErrB where
  | danglingReference
  | referenceCheckFailed
deriving DecidableEq, Repr

/-- The second Booking pre-save hook (`src/unnamed/part_000`, lines
109-124): only when `this.isNew || this.isModified('eventId')` does it
query the store; a query error is wrapped as `referenceCheckFailed`, a
confirmed absence as `danglingReference`. -/
def bookingPreSaveGuarded {ε : Type} (store : Nat → Except ε Bool)
    (isNew modifiedEventId : Bool) (b : BookingDoc) : Except BookingErrB Unit :=
  if isNew || modifiedEventId then
    match store b.eventId with
    | .error _ => .error .referenceCheckFailed
    | .ok false => .error .danglingReference
    | .ok true => .ok ()
  else .ok ()

/-- The module-level cache of `connectDB` (`src/unnamed/part_002`):
`conn` is the cached handle, `promise` the in-flight attempt (identified
by its ordinal), and `attempts` counts how many times `mongoose.connect`
has been invoked. -/
structure ConnCache (η : Type) where
  conn : Option η
  promise : Option Nat
  attempts : Nat
deriving Repr, DecidableEq

/-- Where one caller of `connectDB` stands: before its first synchronous
segment, suspended on `await cached.promise` for attempt `a`, or returned
with a result. -/
inductive ConnPhase (ε η : Type) where
  | start
  | awaiting (a : Nat)
  | done (r : Except ε η)
deriving Repr

/-- One event-loop turn of a `connectDB` caller.  The synchronous segment
from entry to the `await` is atomic: return the cached handle if present,
otherwise adopt the in-flight promise or start a fresh attempt.  The
resumption after the `await` is the second atomic segment: on success
`cached.conn = await cached.promise` stores the handle which is then
returned; on failure `cached.promise = null` and the error is rethrown
(`conn` is left unset).  `outc` gives each attempt's outcome. -/
def connStep {ε η : Type} (outc : Nat → Except ε η) :
    ConnCache η → ConnPhase ε η → ConnCache η × ConnPhase ε η
  | c, .start =>
    match c.conn with
    | some h => (c, .done (.ok h))
    | none =>
      match c.promise with
      | some a => (c, .awaiting a)
      | none =>
        ({ conn := none, promise := some c.attempts, attempts := c.attempts + 1 },
          .awaiting c.attempts)
  | c, .awaiting a =>
    match outc a with
    | .ok h => ({ c with conn := some h }, .done (.ok h))
    | .error e => ({ c with promise := none }, .done (.error e))
  | c, .done r => (c, .done r)

/-- Two logically-concurrent callers of `connectDB` over the shared
module-level cache. -/
structure ConnSys (ε η : Type) where
  cache : ConnCache η
  c1 : ConnPhase ε η
  c2 : ConnPhase ε η
deriving Repr

/-- Advance the chosen caller by one atomic segment. -/
def connSysStep {ε η : Type} (outc : Nat → Except ε η) (s : ConnSys ε η) (i : Bool) :
    ConnSys ε η :=
  if i then
    let r := connStep outc s.cache s.c1
    { s with cache := r.1, c1 := r.2 }
  else
    let r := connStep outc s.cache s.c2
    { s with cache := r.1, c2 := r.2 }

/-- The fresh process state: empty cache, both callers about to run. -/
def connInit {ε η : Type} : ConnSys ε η :=
  ⟨⟨none, none, 0⟩, .start, .start⟩

/-- Run an arbitrary interleaving (a schedule of caller choices) from the
fresh state. -/
def runConnSys {ε η : Type} (outc : Nat → Except ε η) (seq : List Bool) : ConnSys ε η :=
  seq.foldl (connSysStep outc) connInit

/-- Specification-side predicate: every character of the list is JS
whitespace. -/
def allWs (l : List Char) : Prop := ∀ c ∈ l, isJsWs c = true

/-- Specification-side shape of a canonical 24-hour `HH:mm` string with
hours 00-23 and minutes 00-59 (zero-padded two-digit numerals). -/
def Spec24 (l : List Char) : Prop :=
  ∃ h m, h ≤ 23 ∧ m ≤ 59 ∧ l = twoDig h ++ ':' :: twoDig m

/-- The hour spellings the 12-hour branch accepts, with their numeric
value: an unpadded digit `0`-`9`, a zero-padded digit `00`-`09`, or
`10`-`12`. -/
def hourTextA (h : Nat) (htxt : List Char) : Prop :=
  (h ≤ 9 ∧ htxt = [digitCh h]) ∨ (h ≤ 9 ∧ htxt = ['0', digitCh h]) ∨
    (10 ≤ h ∧ h ≤ 12 ∧ htxt = ['1', digitCh (h - 10)])

/-- Two minute characters spelling `00`-`59`. -/
def minuteChars (m1 m2 : Char) : Prop :=
  48 ≤ m1.toNat ∧ m1.toNat ≤ 53 ∧ isDigitC m2

/-- A case-insensitive meridiem `AM`/`PM`, character by character. -/
def merChars (ca cm : Char) : Prop :=
  (ca.toNat = 65 ∨ ca.toNat = 97 ∨ ca.toNat = 80 ∨ ca.toNat = 112) ∧
    (cm.toNat = 77 ∨ cm.toNat = 109)

/-- Whether a meridiem letter is the PM one. -/
def isPMChar (ca : Char) : Bool := decide (ca.toNat = 80 ∨ ca.toNat = 112)

/-- Specification-side shape of a 12-hour time as the code accepts it
(amended claim): hour spelling of value 0-12, colon, two-digit minutes,
whitespace, case-insensitive meridiem, surrounded by optional
whitespace. -/
def Spec12A (l : List Char) : Prop :=
  ∃ wsL htxt h m1 m2 wsr ca cm wsr2,
    allWs wsL ∧ hourTextA h htxt ∧ minuteChars m1 m2 ∧ allWs wsr ∧
      merChars ca cm ∧ allWs wsr2 ∧
      l = wsL ++ htxt ++ ':' :: m1 :: m2 :: (wsr ++ ca :: cm :: wsr2)

/-- Specification-side shape of a 12-hour time as the original claim
states it: the same, but with hour between 1 and 12. -/
def Spec12Claim (l : List Char) : Prop :=
  ∃ wsL htxt h m1 m2 wsr ca cm wsr2,
    1 ≤ h ∧ allWs wsL ∧ hourTextA h htxt ∧ minuteChars m1 m2 ∧ allWs wsr ∧
      merChars ca cm ∧ allWs wsr2 ∧
      l = wsL ++ htxt ++ ':' :: m1 :: m2 :: (wsr ++ ca :: cm :: wsr2)

/-- The standard 12-to-24-hour conversion, extended to hour 0 the way the
code's arithmetic extends it (0 behaves exactly like 12: 0/12 AM give 00,
0/12 PM give 12). -/
def convert12 (h : Nat) (pm : Bool) : Nat :=
  if pm then (if h = 12 then 12 else h + 12) else (if h = 12 then 0 else h)

/-- Reachable phases of one caller while attempt 0 is the only attempt and
it succeeds with handle `h`. -/
def okPhase {ε η : Type} (h : η) (p : ConnPhase ε η) : Prop :=
  p = .start ∨ p = .awaiting 0 ∨ p = .done (.ok h)

/-- Invariant of the two-caller `connectDB` run when attempt 0 succeeds
with handle `h`: either nothing has happened yet, or exactly one attempt
(number 0) has been started, it is the cached promise, the cached handle
is unset or `h`, and each caller is in a reachable phase. -/
def ConnInv {ε η : Type} (h : η) (s : ConnSys ε η) : Prop :=
  (s.cache.conn = none ∧ s.cache.promise = none ∧ s.cache.attempts = 0 ∧
    s.c1 = .start ∧ s.c2 = .start) ∨
  (s.cache.attempts = 1 ∧ s.cache.promise = some 0 ∧
    (s.cache.conn = none ∨ s.cache.conn = some h) ∧ okPhase h s.c1 ∧ okPhase h s.c2)

theorem char_eq_of_toNat {a b : Char} (h : a.toNat = b.toNat) : a = b := by
  have ha := Char.ofNat_toNat a
  have hb := Char.ofNat_toNat b
  rw [← ha, ← hb, h]

theorem digitCh_toNat {n : Nat} (h : n ≤ 9) : (digitCh n).toNat = 48 + n := by
  interval_cases n <;> rfl

theorem alnum_not_ws {c : Char} (h : isAlnumLower c = true) : isJsWs c = false := by
  simp only [isAlnumLower, decide_eq_true_eq] at h
  simp only [isJsWs, decide_eq_false_iff_not]
  omega

theorem mem_of_mem_dropWhile {α : Type} {p : α → Bool} {x : List α} {c : α}
    (h : c ∈ x.dropWhile p) : c ∈ x := by
  have hx : List.takeWhile p x ++ List.dropWhile p x = x := List.takeWhile_append_dropWhile p x
  rw [← hx]
  exact List.mem_append.mpr (Or.inr h)

theorem head_dropWhile_false {α : Type} (p : α → Bool) (l : List α) {c : α}
    (h : (l.dropWhile p).head? = some c) : p c = false := by
  induction l with
  | nil => simp [List.dropWhile] at h
  | cons a t ih =>
    rw [List.dropWhile_cons] at h
    by_cases hp : p a = true
    · rw [if_pos hp] at h; exact ih h
    · rw [if_neg hp] at h
      simp only [List.head?_cons, Option.some.injEq] at h
      subst h
      exact Bool.eq_false_iff.mpr hp

theorem dropWhile_append_all {α : Type} {p : α → Bool} {l : List α}
    (hl : ∀ c ∈ l, p c = true) (r : List α) : (l ++ r).dropWhile p = r.dropWhile p := by
  induction l with
  | nil => simp
  | cons a t ih =>
    rw [List.cons_append, List.dropWhile_cons, if_pos (hl a (List.mem_cons_self a t))]
    exact ih fun c hc => hl c (List.mem_cons_of_mem a hc)

theorem dropWhile_eq_self_of_head {α : Type} (p : α → Bool) (l : List α)
    (h : ∀ c, l.head? = some c → p c = false) : l.dropWhile p = l := by
  cases l with
  | nil => rfl
  | cons a t =>
    rw [List.dropWhile_cons, if_neg]
    simp [h a rfl]

theorem chain'_dropWhile {α : Type} {R : α → α → Prop} {p : α → Bool} {l : List α}
    (h : List.Chain' R l) : List.Chain' R (l.dropWhile p) := by
  rw [← List.takeWhile_append_dropWhile p l] at h
  exact (List.chain'_append.mp h).2.1

theorem collapse_mem (l : List Char) : ∀ (b : Bool) (c : Char),
    c ∈ collapseAux l b → isAlnumLower c = true ∨ c = '-' := by
  induction l with
  | nil => intro b c hc; simp [collapseAux] at hc
  | cons a t ih =>
    intro b c hc
    simp only [collapseAux] at hc
    by_cases ha : isAlnumLower a = true
    · rw [if_pos ha] at hc
      rcases List.mem_cons.mp hc with rfl | hc
      · exact Or.inl ha
      · exact ih false c hc
    · rw [if_neg ha] at hc
      cases b with
      | true => simp only [if_pos] at hc; exact ih true c hc
      | false =>
        simp only [Bool.false_eq_true, if_false] at hc
        rcases List.mem_cons.mp hc with rfl | hc
        · exact Or.inr rfl
        · exact ih true c hc

theorem collapse_head_true (l : List Char) : ∀ c : Char,
    (collapseAux l true).head? = some c → isAlnumLower c = true := by
  induction l with
  | nil => intro c hc; simp [collapseAux] at hc
  | cons a t ih =>
    intro c hc
    simp only [collapseAux] at hc
    by_cases ha : isAlnumLower a = true
    · rw [if_pos ha] at hc
      simp only [List.head?_cons, Option.some.injEq] at hc
      subst hc; exact ha
    · rw [if_neg ha] at hc
      simp only [if_pos] at hc
      exact ih c hc

theorem collapse_chain (l : List Char) : ∀ b : Bool,
    List.Chain' (fun a c => ¬(a = '-' ∧ c = '-')) (collapseAux l b) := by
  induction l with
  | nil => intro b; simp [collapseAux]
  | cons a t ih =>
    intro b
    simp only [collapseAux]
    by_cases ha : isAlnumLower a = true
    · rw [if_pos ha]
      rw [List.chain'_cons']
      refine ⟨?_, ih false⟩
      intro y _ hcon
      rcases hcon with ⟨h1, _⟩
      subst h1
      exact absurd ha (by decide)
    · rw [if_neg ha]
      cases b with
      | true => simp only [if_pos]; exact ih true
      | false =>
        simp only [Bool.false_eq_true, if_false]
        rw [List.chain'_cons']
        refine ⟨?_, ih true⟩
        intro y hy hcon
        rcases hcon with ⟨_, h2⟩
        have := collapse_head_true t y (Option.mem_def.mp hy)
        subst h2
        exact absurd this (by decide)

theorem stripHyphens_mem {l : List Char} {c : Char} (h : c ∈ stripHyphens l) : c ∈ l := by
  unfold stripHyphens at h
  rw [List.mem_reverse] at h
  have h1 : c ∈ (l.dropWhile fun c => c == '-').reverse := mem_of_mem_dropWhile h
  rw [List.mem_reverse] at h1
  exact mem_of_mem_dropWhile h1

theorem stripHyphens_head {l : List Char} {c : Char}
    (h : (stripHyphens l).head? = some c) : (c == '-') = false := by
  unfold stripHyphens at h
  set l1 := l.dropWhile (fun c => c == '-') with hl1
  set y := l1.reverse.dropWhile (fun c => c == '-') with hy
  have hdec : l1.reverse = l1.reverse.takeWhile (fun c => c == '-') ++ y :=
    (List.takeWhile_append_dropWhile _ _).symm
  have hl1eq : l1 = y.reverse ++ (l1.reverse.takeWhile (fun c => c == '-')).reverse := by
    have h2 := congrArg List.reverse hdec
    simpa [List.reverse_append] using h2
  have hcl1 : l1.head? = some c := by
    rw [hl1eq, List.head?_append, h]
    rfl
  rw [hl1] at hcl1
  exact head_dropWhile_false (fun x => x == '-') l hcl1

theorem stripHyphens_getLast {l : List Char} {c : Char}
    (h : (stripHyphens l).getLast? = some c) : (c == '-') = false := by
  unfold stripHyphens at h
  rw [List.getLast?_reverse] at h
  exact head_dropWhile_false (fun x => x == '-') (l.dropWhile fun x => x == '-').reverse h

theorem stripHyphens_chain {R : Char → Char → Prop} {l : List Char}
    (h : List.Chain' R l) : List.Chain' R (stripHyphens l) := by
  unfold stripHyphens
  rw [List.chain'_reverse]
  apply chain'_dropWhile
  rw [List.chain'_reverse]
  exact chain'_dropWhile h

theorem slugProps (T : String) :
    (∀ c ∈ (generateSlug T).data, isAlnumLower c = true ∨ c = '-') ∧
    (∀ c : Char, (generateSlug T).data.head? = some c → c ≠ '-') ∧
    (∀ c : Char, (generateSlug T).data.getLast? = some c → c ≠ '-') ∧
    List.Chain' (fun a b => ¬(a = '-' ∧ b = '-')) (generateSlug T).data := by
  refine ⟨?_, ?_, ?_, ?_⟩
  · intro c hc
    exact collapse_mem _ false c (stripHyphens_mem hc)
  · intro c hc
    have := stripHyphens_head hc
    simpa using this
  · intro c hc
    have := stripHyphens_getLast hc
    simpa using this
  · exact stripHyphens_chain (collapse_chain _ false)

theorem string_mk_data (s : String) : String.mk s.data = s := rfl

/-- C2: for every title the generated slug — the lowercasing of the title
with every run of non-alphanumerics collapsed to one hyphen and boundary
hyphens stripped, which is what `generateSlug` computes — consists only of
lowercase alphanumerics and hyphens, neither begins nor ends with a hyphen,
has no two consecutive hyphens, and the empty title yields the empty
string (the generator is total, so it never fails). -/
theorem generateSlug_shape_spec (T : String) :
    (∀ c ∈ (generateSlug T).data, isAlnumLower c = true ∨ c = '-') ∧
    (∀ c : Char, (generateSlug T).data.head? = some c → c ≠ '-') ∧
    (∀ c : Char, (generateSlug T).data.getLast? = some c → c ≠ '-') ∧
    List.Chain' (fun a b => ¬(a = '-' ∧ b = '-')) (generateSlug T).data ∧
    generateSlug "" = "" :=
  ⟨(slugProps T).1, (slugProps T).2.1, (slugProps T).2.2.1, (slugProps T).2.2.2, rfl⟩

/-- C2 witness: the theorem applied at the concrete title `"Hello, World!"`,
whose slug is `"hello-world"`; its first character is classified by the
first conjunct. -/
theorem generateSlug_shape_witness :
    generateSlug "Hello, World!" = "hello-world" ∧ (isAlnumLower 'h' = true ∨ 'h' = '-') :=
  ⟨rfl, (generateSlug_shape_spec "Hello, World!").1 'h' (by decide)⟩

theorem collapse_id (l : List Char) : ∀ b : Bool,
    (∀ c ∈ l, isAlnumLower c = true ∨ c = '-') →
    List.Chain' (fun a c => ¬(a = '-' ∧ c = '-')) l →
    (l.head? = some '-' → b = false) →
    collapseAux l b = l := by
  induction l with
  | nil => intro b _ _ _; rfl
  | cons a t ih =>
    intro b hmem hchain hhead
    simp only [collapseAux]
    rcases hmem a (List.mem_cons_self a t) with ha | ha
    · rw [if_pos ha]
      congr 1
      exact ih false (fun c hc => hmem c (List.mem_cons_of_mem a hc))
        (List.chain'_cons'.mp hchain).2 (fun _ => rfl)
    · subst ha
      have hb : b = false := hhead rfl
      subst hb
      rw [if_neg (by decide)]
      simp only [Bool.false_eq_true, if_false]
      congr 1
      apply ih true (fun c hc => hmem c (List.mem_cons_of_mem _ hc))
        (List.chain'_cons'.mp hchain).2
      intro hT
      exfalso
      exact (List.chain'_cons'.mp hchain).1 '-' (Option.mem_def.mpr hT) ⟨rfl, rfl⟩

theorem map_lower_id (l : List Char) (h : ∀ c ∈ l, isAlnumLower c = true ∨ c = '-') :
    l.map jsCharToLower = l := by
  induction l with
  | nil => rfl
  | cons a t ih =>
    simp only [List.map_cons]
    have ha : jsCharToLower a = a := by
      rcases h a (List.mem_cons_self a t) with ha | ha
      · simp only [isAlnumLower, decide_eq_true_eq] at ha
        unfold jsCharToLower
        rw [if_neg (by omega)]
      · subst ha; decide
    rw [ha, ih (fun c hc => h c (List.mem_cons_of_mem a hc))]

theorem trimList_id (l : List Char)
    (hh : ∀ c : Char, l.head? = some c → isJsWs c = false)
    (hl : ∀ c : Char, l.getLast? = some c → isJsWs c = false) :
    trimList l = l := by
  unfold trimList
  rw [dropWhile_eq_self_of_head _ _ hh]
  rw [dropWhile_eq_self_of_head _ _ (fun c hc => hl c (by rwa [List.head?_reverse] at hc))]
  exact List.reverse_reverse l

theorem stripHyphens_id (l : List Char)
    (hh : ∀ c : Char, l.head? = some c → c ≠ '-')
    (hl : ∀ c : Char, l.getLast? = some c → c ≠ '-') :
    stripHyphens l = l := by
  unfold stripHyphens
  rw [dropWhile_eq_self_of_head (fun x => x == '-') l (fun c hc => by simpa using hh c hc)]
  rw [dropWhile_eq_self_of_head (fun x => x == '-') l.reverse
    (fun c hc => by simpa using hl c (by rwa [List.head?_reverse] at hc))]
  exact List.reverse_reverse l

/-- C10: the slug generator is idempotent — every slug it emits is a fixed
point of another `generateSlug` pass. -/
theorem generateSlug_idempotent (T : String) :
    generateSlug (generateSlug T) = generateSlug T := by
  obtain ⟨hmem, hhead, hlast, hchain⟩ := slugProps T
  show String.mk
      (stripHyphens (collapseAux ((trimJS (generateSlug T)).data.map jsCharToLower) false)) =
    generateSlug T
  have htrim : (trimJS (generateSlug T)).data = (generateSlug T).data := by
    show trimList (generateSlug T).data = (generateSlug T).data
    apply trimList_id
    · intro c hc
      rcases hmem c (List.mem_of_mem_head? (Option.mem_def.mpr hc)) with h1 | h1
      · exact alnum_not_ws h1
      · exact absurd h1 (hhead c hc)
    · intro c hc
      rcases hmem c (List.mem_of_mem_getLast? (Option.mem_def.mpr hc)) with h1 | h1
      · exact alnum_not_ws h1
      · exact absurd h1 (hlast c hc)
  rw [htrim, map_lower_id _ hmem, collapse_id _ false hmem hchain (fun _ => rfl),
    stripHyphens_id _ hhead hlast, string_mk_data]

theorem natToDigitsAux_succ (f n : Nat) : natToDigitsAux (f + 1) n =
    if n < 10 then [digitCh n] else natToDigitsAux f (n / 10) ++ [digitCh (n % 10)] := rfl

theorem natToDigitsAux_fuel (n : Nat) : ∀ f : Nat, n < f → natToDigitsAux f n = natToDigits n := by
  induction n using Nat.strong_induction_on with
  | _ n ih =>
    intro f hf
    obtain ⟨g, rfl⟩ : ∃ g, f = g + 1 := ⟨f - 1, by omega⟩
    unfold natToDigits
    rw [natToDigitsAux_succ, natToDigitsAux_succ]
    by_cases h10 : n < 10
    · rw [if_pos h10, if_pos h10]
    · rw [if_neg h10, if_neg h10]
      have hd : n / 10 < n := Nat.div_lt_self (by omega) (by omega)
      rw [ih (n / 10) hd g (by omega), ih (n / 10) hd n (by omega)]

theorem natToDigits_small {n : Nat} (h : n < 10) : natToDigits n = [digitCh n] := by
  unfold natToDigits
  rw [natToDigitsAux_succ, if_pos h]

theorem natToDigits_step {n : Nat} (h : 10 ≤ n) :
    natToDigits n = natToDigits (n / 10) ++ [digitCh (n % 10)] := by
  have h1 : natToDigits n = natToDigitsAux n (n / 10) ++ [digitCh (n % 10)] := by
    show natToDigitsAux (n + 1) n = _
    rw [natToDigitsAux_succ, if_neg (by omega)]
  rw [h1, natToDigitsAux_fuel (n / 10) n (Nat.div_lt_self (by omega) (by omega))]

theorem natToDigits_two {n : Nat} (h1 : 10 ≤ n) (h2 : n ≤ 99) :
    natToDigits n = [digitCh (n / 10), digitCh (n % 10)] := by
  rw [natToDigits_step h1, natToDigits_small (by omega)]
  rfl

theorem natToDigits_four {y : Nat} (h1 : 1000 ≤ y) (h2 : y ≤ 9999) :
    natToDigits y =
      [digitCh (y / 1000), digitCh (y / 100 % 10), digitCh (y / 10 % 10), digitCh (y % 10)] := by
  have e1 : y / 10 / 10 = y / 100 := by
    rw [Nat.div_div_eq_div_mul]
  have e2 : y / 100 / 10 = y / 1000 := by
    rw [Nat.div_div_eq_div_mul]
  rw [natToDigits_step (by omega), natToDigits_step (show 10 ≤ y / 10 by omega), e1,
    natToDigits_two (show 10 ≤ y / 100 by omega) (by omega), e2]
  rfl

theorem padTwoL_eq_twoDig {n : Nat} (h : n ≤ 99) : padTwoL n = twoDig n := by
  unfold padTwoL twoDig
  by_cases h10 : n < 10
  · rw [if_pos h10, natToDigits_small h10]
    have e1 : n / 10 = 0 := by omega
    have e2 : n % 10 = n := by omega
    rw [e1, e2]
    have h0 : digitCh 0 = '0' := by decide
    rw [h0]
  · rw [if_neg h10, natToDigits_two (by omega) h]

theorem digitCh_eq_of {n : Nat} {c : Char} (hn : n ≤ 9) (hc : c.toNat = 48 + n) :
    digitCh n = c :=
  char_eq_of_toNat (by rw [digitCh_toNat hn, hc])

/-- C7 (amended): date normalization fixes every canonical zero-padded
`YYYY-MM-DD` string denoting a valid calendar date whose year is at least
1000; `parseISODate s = some (y, mo, d)` states exactly that `s` is such a
canonical valid string with fields `y`/`mo`/`d`.  (For years below 1000 the
normalizer re-prints the year without its leading zeros — see the
counterexample — so those canonical strings are not fixed.) -/
theorem normalizeDate_idempotent_amended (s : String) (y mo d : Nat)
    (hp : parseISODate s = some (y, mo, d)) (hy : 1000 ≤ y) :
    normalizeDate s = .ok s := by
  unfold normalizeDate
  rw [hp]
  show Except.ok (String.mk (natToDigits y ++ '-' :: (padTwoL mo ++ '-' :: padTwoL d))) =
    Except.ok s
  unfold parseISODate at hp
  split at hp
  case h_2 => exact absurd hp (by simp)
  case h_1 y1 y2 y3 y4 s1 mo1 mo2 s2 d1 d2 heq =>
    split at hp
    case isFalse => exact absurd hp (by simp)
    case isTrue hconds =>
      simp only [] at hp
      split at hp
      case isFalse => exact absurd hp (by simp)
      case isTrue hrange =>
        simp only [Option.some.injEq, Prod.mk.injEq] at hp
        obtain ⟨hyv, hmov, hdv⟩ := hp
        obtain ⟨hy1, hy2, hy3, hy4, hs1, hmo1, hmo2, hs2, hd1, hd2⟩ := hconds
        unfold isDigitC at hy1 hy2 hy3 hy4 hmo1 hmo2 hd1 hd2
        have hy9 : y ≤ 9999 := by omega
        have hgoal : natToDigits y ++ '-' :: (padTwoL mo ++ '-' :: padTwoL d) =
            [y1, y2, y3, y4, s1, mo1, mo2, s2, d1, d2] := by
          rw [natToDigits_four hy hy9, padTwoL_eq_twoDig (show mo ≤ 99 by omega),
            padTwoL_eq_twoDig (show d ≤ 99 by omega)]
          unfold twoDig
          simp only [List.cons_append, List.nil_append, List.cons.injEq, and_true]
          refine ⟨?_, ?_, ?_, ?_, ?_, ?_, ?_, ?_, ?_, ?_⟩
          · exact digitCh_eq_of (by omega) (by omega)
          · exact digitCh_eq_of (by omega) (by omega)
          · exact digitCh_eq_of (by omega) (by omega)
          · exact digitCh_eq_of (by omega) (by omega)
          · exact char_eq_of_toNat (by rw [hs1]; rfl)
          · exact digitCh_eq_of (by omega) (by omega)
          · exact digitCh_eq_of (by omega) (by omega)
          · exact char_eq_of_toNat (by rw [hs2]; rfl)
          · exact digitCh_eq_of (by omega) (by omega)
          · exact digitCh_eq_of (by omega) (by omega)
        rw [hgoal, ← heq, string_mk_data]

/-- C7 witness: the amended theorem applied to the canonical leap-day date
`2024-02-29`, which the normalizer returns unchanged. -/
theorem normalizeDate_idempotent_witness :
    normalizeDate "2024-02-29" = .ok "2024-02-29" :=
  normalizeDate_idempotent_amended "2024-02-29" 2024 2 29 rfl (by omega)

/-- C7 counterexample: `"0099-05-05"` is a canonical zero-padded valid
calendar date (its parse succeeds with year 99), yet the normalizer
re-prints the year unpadded and returns the different string `"99-05-05"`
instead of the input. -/
theorem normalizeDate_small_year_cex :
    parseISODate "0099-05-05" = some (99, 5, 5) ∧
      normalizeDate "0099-05-05" = .ok "99-05-05" ∧
      ("99-05-05" : String) ≠ "0099-05-05" := by
  refine ⟨rfl, rfl, ?_⟩
  decide

/-- C3 (amended): the pre-persist validation rejects a write exactly as the
claim says, except that the `mode` membership test runs on the value after
the schema's `lowercase: true` setter, so it is case-insensitive: the write
succeeds iff every listed required field is non-empty after trimming, the
lowercased `mode` is in the enumerated set, and `agenda` and `tags` are
non-empty; a trim-empty required field yields `RequiredFieldMissing` naming
an empty field, a lowercased mode outside the set yields `InvalidEnumValue`
(so `"virtual"` fails while `"hybrid"` — and also `"HYBRID"` — succeed),
and an empty `agenda` or `tags` yields `EmptyListField`. -/
theorem validateEvent_amended_spec (e : EventDoc) :
    ((validateEvent e = .ok ()) ↔
      ((∀ p ∈ requiredFields e, trimJS p.2 ≠ "") ∧ jsToLower e.mode ∈ modeValues ∧
        e.agenda ≠ [] ∧ e.tags ≠ [])) ∧
    ((∃ p ∈ requiredFields e, trimJS p.2 = "") →
      ∃ f v, (f, v) ∈ requiredFields e ∧ trimJS v = "" ∧
        validateEvent e = .error (.requiredFieldMissing f)) ∧
    ((∀ p ∈ requiredFields e, trimJS p.2 ≠ "") → jsToLower e.mode ∉ modeValues →
      validateEvent e = .error .invalidEnumValue) ∧
    ((∀ p ∈ requiredFields e, trimJS p.2 ≠ "") → jsToLower e.mode ∈ modeValues →
      e.agenda = [] → validateEvent e = .error (.emptyListField "agenda")) ∧
    ((∀ p ∈ requiredFields e, trimJS p.2 ≠ "") → jsToLower e.mode ∈ modeValues →
      e.agenda ≠ [] → e.tags = [] → validateEvent e = .error (.emptyListField "tags")) := by
  unfold validateEvent
  cases hf : (requiredFields e).find? (fun p => trimJS p.2 == "") with
  | some p =>
    have hmem := List.mem_of_find?_eq_some hf
    have hpred : trimJS p.2 = "" := by
      have := List.find?_some hf
      simpa using this
    refine ⟨⟨fun h => absurd h (by simp), fun h => absurd hpred (h.1 p hmem)⟩,
      fun _ => ⟨p.1, p.2, hmem, hpred, rfl⟩,
      fun hreq _ => absurd hpred (hreq p hmem),
      fun hreq _ _ => absurd hpred (hreq p hmem),
      fun hreq _ _ _ => absurd hpred (hreq p hmem)⟩
  | none =>
    have hreq : ∀ p ∈ requiredFields e, trimJS p.2 ≠ "" := by
      intro p hp
      have := List.find?_eq_none.mp hf p hp
      simpa using this
    refine ⟨?_, fun hex => absurd hex (by push_neg; exact hreq), ?_, ?_, ?_⟩
    · by_cases hmode : jsToLower e.mode ∈ modeValues
      · rw [if_pos hmode]
        by_cases hag : e.agenda = []
        · rw [if_pos hag]
          constructor
          · intro h; exact absurd h (by simp)
          · rintro ⟨-, -, hag2, -⟩; exact absurd hag hag2
        · rw [if_neg hag]
          by_cases htg : e.tags = []
          · rw [if_pos htg]
            constructor
            · intro h; exact absurd h (by simp)
            · rintro ⟨-, -, -, htg2⟩; exact absurd htg htg2
          · rw [if_neg htg]
            exact ⟨fun _ => ⟨hreq, hmode, hag, htg⟩, fun _ => rfl⟩
      · rw [if_neg hmode]
        constructor
        · intro h; exact absurd h (by simp)
        · rintro ⟨-, hmode2, -⟩; exact absurd hmode2 hmode
    · intro _ hmode
      rw [if_neg hmode]
    · intro _ hmode hag
      rw [if_pos hmode, if_pos hag]
    · intro _ hmode hag htg
      rw [if_pos hmode, if_neg hag, if_pos htg]

/-- C3 counterexample: a fully-populated Event whose `mode` is `"HYBRID"` —
a value outside the enumerated set `online|offline|hybrid` — is accepted by
the validator, because the schema lowercases `mode` before the enum check;
the claim as stated says any mode outside the set must fail with
`InvalidEnumValue`. -/
theorem validateEvent_mode_case_cex :
    validateEvent
        { title := "Tech Meetup", slug := "", description := "d", overview := "o",
          image := "i", venue := "v", location := "l", date := "2025-01-01",
          time := "10:00", mode := "HYBRID", audience := "a", agenda := ["x"],
          organizer := "org", tags := ["t"] } = .ok () ∧
      ("HYBRID" : String) ∉ modeValues := by
  constructor
  · rfl
  · decide


/-- C3 witness: the amended theorem applied to two concrete Events — the
spec's own examples — `mode := "virtual"` is rejected with
`InvalidEnumValue` and `mode := "hybrid"` is accepted. -/
theorem validateEvent_amended_witness :
    validateEvent
        { title := "t", slug := "", description := "d", overview := "o",
          image := "i", venue := "v", location := "l", date := "2025-01-01",
          time := "10:00", mode := "virtual", audience := "a", agenda := ["x"],
          organizer := "org", tags := ["t"] } = .error .invalidEnumValue ∧
      validateEvent
        { title := "t", slug := "", description := "d", overview := "o",
          image := "i", venue := "v", location := "l", date := "2025-01-01",
          time := "10:00", mode := "hybrid", audience := "a", agenda := ["x"],
          organizer := "org", tags := ["t"] } = .ok () := by
  constructor
  · exact (validateEvent_amended_spec _).2.2.1 (by decide) (by decide)
  · exact (validateEvent_amended_spec _).1.mpr ⟨by decide, by decide, by decide, by decide⟩

/-- C4: on success the Event pre-save hook recomputes `slug` exactly when
the title changed or the stored slug is unset (and leaves it alone
otherwise), re-normalizes `date` exactly when the date field changed and
`time` exactly when the time field changed (leaving the untouched one
unchanged), and modifies no other stored field; when a normalizer fails,
the hook fails with that normalizer's error (`InvalidDate`, and
`InvalidTime` once the date step has passed). -/
theorem preSaveHook_frame_spec :
    (∀ (m : ModFlags) (e e' : EventDoc), preSaveHook m e = .ok e' →
      e'.title = e.title ∧ e'.description = e.description ∧ e'.overview = e.overview ∧
        e'.image = e.image ∧ e'.venue = e.venue ∧ e'.location = e.location ∧
        e'.mode = e.mode ∧ e'.audience = e.audience ∧ e'.organizer = e.organizer ∧
        e'.agenda = e.agenda ∧ e'.tags = e.tags ∧
        e'.slug = (if m.title || e.slug == "" then generateSlug e.title else e.slug) ∧
        (m.title = false → e.slug ≠ "" → e'.slug = e.slug) ∧
        (m.date = true → normalizeDate e.date = .ok e'.date) ∧
        (m.date = false → e'.date = e.date) ∧
        (m.time = true → normalizeTime e.time = .ok e'.time) ∧
        (m.time = false → e'.time = e.time)) ∧
    (∀ (m : ModFlags) (e : EventDoc), validateEvent e = .ok () → m.date = true →
      normalizeDate e.date = .error .invalidDate → preSaveHook m e = .error .invalidDate) ∧
    (∀ (m : ModFlags) (e : EventDoc) (dv : String), validateEvent e = .ok () →
      (if m.date = true then normalizeDate e.date else .ok e.date) = .ok dv →
      m.time = true → normalizeTime e.time = .error .invalidTime →
      preSaveHook m e = .error .invalidTime) := by
  refine ⟨?_, ?_, ?_⟩
  · intro m e e' h
    unfold preSaveHook at h
    cases hv : validateEvent e with
    | error err => rw [hv] at h; exact absurd h (by simp)
    | ok u =>
      rw [hv] at h
      cases hd : (if m.date = true then normalizeDate e.date else Except.ok e.date) with
      | error de => rw [hd] at h; exact absurd h (by simp)
      | ok dateV =>
        rw [hd] at h
        cases ht : (if m.time = true then normalizeTime e.time else Except.ok e.time) with
        | error te => rw [ht] at h; exact absurd h (by simp)
        | ok timeV =>
          rw [ht] at h
          simp only [Except.ok.injEq] at h
          subst h
          refine ⟨rfl, rfl, rfl, rfl, rfl, rfl, rfl, rfl, rfl, rfl, rfl, rfl,
            ?_, ?_, ?_, ?_, ?_⟩
          · intro hmt hslug
            show (if m.title || e.slug == "" then generateSlug e.title else e.slug) = e.slug
            rw [hmt]
            rw [if_neg (by simpa using hslug)]
          · intro hmd
            rw [hmd] at hd
            simpa using hd
          · intro hmd
            rw [hmd] at hd
            simp only [Bool.false_eq_true, if_false, Except.ok.injEq] at hd
            exact hd.symm
          · intro hmt
            rw [hmt] at ht
            simpa using ht
          · intro hmt
            rw [hmt] at ht
            simp only [Bool.false_eq_true, if_false, Except.ok.injEq] at ht
            exact ht.symm
  · intro m e hv hmd hnd
    unfold preSaveHook
    rw [hv, hmd]
    simp only [if_true, hnd]
  · intro m e dv hv hd hmt hnt
    unfold preSaveHook
    rw [hv, hd, hmt]
    simp only [if_true, hnt]

/-- C4 witness: the frame theorem applied to a concrete create (all three
fields modified, empty slug): the hook yields the slugged, normalized
document, and the extracted conclusion confirms the stored time is the
normalization of the modified time field. -/
theorem preSaveHook_frame_witness :
    normalizeTime "3:45 pm" = .ok "15:45" := by
  have h := preSaveHook_frame_spec.1 ⟨true, true, true⟩
    { title := "My Event", slug := "", description := "d", overview := "o", image := "i",
      venue := "v", location := "l", date := "2025-03-07", time := "3:45 pm",
      mode := "online", audience := "a", agenda := ["x"], organizer := "org", tags := ["t"] }
    { title := "My Event", slug := "my-event", description := "d", overview := "o",
      image := "i", venue := "v", location := "l", date := "2025-03-07", time := "15:45",
      mode := "online", audience := "a", agenda := ["x"], organizer := "org", tags := ["t"] }
    rfl
  exact h.2.2.2.2.2.2.2.2.2.2.2.2.2.2.2.1 rfl

/-- C5: for every Booking creation under the unconditional pre-save hook,
over any state of the Event store: a stored email (after the trim/lowercase
setters) that fails the practical `local-part@domain.tld` pattern fails the
write with `InvalidEmail`; a well-formed email whose referenced `eventId`
the store confirms absent fails with `DanglingReference`; and a well-formed
email with a confirmed-existing `eventId` is accepted — no other validation
rejects it. -/
theorem bookingCreate_spec {ε : Type} (store : Nat → Except ε Bool) (b : BookingDoc) :
    (emailMatch (storedEmail b).data = false →
      bookingPreSaveAlways store b = .error .invalidEmail) ∧
    (emailMatch (storedEmail b).data = true → store b.eventId = .ok false →
      bookingPreSaveAlways store b = .error .danglingReference) ∧
    (emailMatch (storedEmail b).data = true → store b.eventId = .ok true →
      bookingPreSaveAlways store b = .ok ()) := by
  unfold bookingPreSaveAlways
  refine ⟨?_, ?_, ?_⟩
  · intro he
    rw [he]
    simp
  · intro he hs
    rw [if_pos he, hs]
  · intro he hs
    rw [if_pos he, hs]


/-- C5 witness: the theorem applied to a concrete booking whose raw email
`" User@Example.com "` is stored as the well-formed `"user@example.com"`,
against a store confirming the Event exists: creation succeeds. -/
theorem bookingCreate_witness :
    bookingPreSaveAlways (fun _ => (.ok true : Except Unit Bool)) ⟨5, " User@Example.com "⟩ =
      .ok () :=
  (bookingCreate_spec _ _).2.2 (by decide) rfl


/-- C6: under the guarded pre-save hook, the Event store is consulted
exactly when the record is new or `eventId` changed: otherwise the result
is the same for every store (it is never queried) and the hook passes;
when it is consulted, a failing existence query yields
`ReferenceCheckFailed`, a confirmed absence yields `DanglingReference`,
a confirmed presence passes, and the two failures are distinct errors. -/
theorem bookingGuarded_refcheck_spec {ε : Type} (b : BookingDoc) (isNew modifiedEventId : Bool) :
    ((isNew || modifiedEventId) = false →
      (∀ s1 s2 : Nat → Except ε Bool,
        bookingPreSaveGuarded s1 isNew modifiedEventId b =
          bookingPreSaveGuarded s2 isNew modifiedEventId b) ∧
      (∀ store : Nat → Except ε Bool,
        bookingPreSaveGuarded store isNew modifiedEventId b = .ok ())) ∧
    ((isNew || modifiedEventId) = true →
      ∀ store : Nat → Except ε Bool,
        (∀ err : ε, store b.eventId = .error err →
          bookingPreSaveGuarded store isNew modifiedEventId b = .error .referenceCheckFailed) ∧
        (store b.eventId = .ok false →
          bookingPreSaveGuarded store isNew modifiedEventId b = .error .danglingReference) ∧
        (store b.eventId = .ok true →
          bookingPreSaveGuarded store isNew modifiedEventId b = .ok ())) ∧
    BookingErrB.referenceCheckFailed ≠ BookingErrB.danglingReference := by
  refine ⟨?_, ?_, by simp⟩
  · intro hcond
    unfold bookingPreSaveGuarded
    rw [hcond]
    exact ⟨fun _ _ => rfl, fun _ => rfl⟩
  · intro hcond store
    unfold bookingPreSaveGuarded
    rw [hcond]
    refine ⟨fun err hs => ?_, fun hs => ?_, fun hs => ?_⟩ <;> rw [if_pos rfl, hs]


/-- C6 witness: the theorem applied to a new record over an unreachable
store (every query errors): the write fails with `ReferenceCheckFailed`. -/
theorem bookingGuarded_refcheck_witness :
    bookingPreSaveGuarded (fun _ => (.error () : Except Unit Bool)) true false ⟨3, "a@b.c"⟩ =
      .error .referenceCheckFailed :=
  ((bookingGuarded_refcheck_spec ⟨3, "a@b.c"⟩ true false).2.1 rfl _).1 () rfl

/-- C8: when the in-flight connection attempt fails, the resumed
`connectDB` caller clears the cached pending-attempt slot (`promise`
returns to `none`), caches no connection handle (`conn` stays `none`), and
completes with the error — the state is back to Unconnected, the attempt
counter shows the failing call started exactly one attempt (no automatic
retry within the call), and a next call from that state starts a fresh
attempt (number 1). -/
theorem connectDB_failure_reset_spec {ε η : Type} (outc : Nat → Except ε η) (e : ε)
    (h : outc 0 = .error e) :
    connStep outc ⟨none, none, 0⟩ .start = (⟨none, some 0, 1⟩, .awaiting 0) ∧
    connStep outc ⟨none, some 0, 1⟩ (.awaiting 0) = (⟨none, none, 1⟩, .done (.error e)) ∧
    connStep outc ⟨none, none, 1⟩ .start = (⟨none, some 1, 2⟩, .awaiting 1) := by
  refine ⟨rfl, ?_, rfl⟩
  simp [connStep, h]


/-- C8 witness: the theorem applied to a concrete always-failing outcome
environment: the post-failure cache is empty and the caller is done with
the error. -/
theorem connectDB_failure_reset_witness :
    connStep (fun _ => (.error 0 : Except Nat Nat)) ⟨none, some 0, 1⟩ (.awaiting 0) =
      (⟨none, none, 1⟩, .done (.error 0)) :=
  (connectDB_failure_reset_spec (fun _ => (.error 0 : Except Nat Nat)) 0 rfl).2.1

theorem connStep_pres {ε η : Type} (outc : Nat → Except ε η) (h : η) (houtc : outc 0 = .ok h)
    (c : ConnCache η) (p : ConnPhase ε η)
    (hc : c.attempts = 1 ∧ c.promise = some 0 ∧ (c.conn = none ∨ c.conn = some h))
    (hp : okPhase h p) :
    ((connStep outc c p).1.attempts = 1 ∧ (connStep outc c p).1.promise = some 0 ∧
      ((connStep outc c p).1.conn = none ∨ (connStep outc c p).1.conn = some h)) ∧
    okPhase h (connStep outc c p).2 := by
  obtain ⟨ha, hpr, hcn⟩ := hc
  rcases hp with rfl | rfl | rfl
  · rcases hcn with hconn | hconn
    · simp [connStep, hconn, hpr, ha, okPhase]
    · simp [connStep, hconn, hpr, ha, okPhase]
  · simp [connStep, houtc, okPhase, ha, hpr]
  · simp [connStep, okPhase, ha, hpr, hcn]

theorem connSysStep_inv {ε η : Type} (outc : Nat → Except ε η) (h : η)
    (houtc : outc 0 = .ok h) (s : ConnSys ε η) (i : Bool)
    (hs : ConnInv h s) : ConnInv h (connSysStep outc s i) := by
  obtain ⟨⟨conn, pr, att⟩, c1, c2⟩ := s
  rcases hs with ⟨h1, h2, h3, h4, h5⟩ | ⟨h1, h2, h3, h4, h5⟩
  · simp only at h1 h2 h3 h4 h5
    subst h1; subst h2; subst h3; subst h4; subst h5
    cases i
    · have hstep : connSysStep outc ⟨⟨none, none, 0⟩, .start, .start⟩ false =
          ⟨⟨none, some 0, 1⟩, .start, .awaiting 0⟩ := rfl
      rw [hstep]
      exact Or.inr ⟨rfl, rfl, Or.inl rfl, Or.inl rfl, Or.inr (Or.inl rfl)⟩
    · have hstep : connSysStep outc ⟨⟨none, none, 0⟩, .start, .start⟩ true =
          ⟨⟨none, some 0, 1⟩, .awaiting 0, .start⟩ := rfl
      rw [hstep]
      exact Or.inr ⟨rfl, rfl, Or.inl rfl, Or.inr (Or.inl rfl), Or.inl rfl⟩
  · simp only at h1 h2 h3
    cases i
    · have hp := connStep_pres outc h houtc ⟨conn, pr, att⟩ c2 ⟨h1, h2, h3⟩ h5
      have hstep : connSysStep outc ⟨⟨conn, pr, att⟩, c1, c2⟩ false =
          ⟨(connStep outc ⟨conn, pr, att⟩ c2).1, c1, (connStep outc ⟨conn, pr, att⟩ c2).2⟩ := rfl
      rw [hstep]
      exact Or.inr ⟨hp.1.1, hp.1.2.1, hp.1.2.2, h4, hp.2⟩
    · have hp := connStep_pres outc h houtc ⟨conn, pr, att⟩ c1 ⟨h1, h2, h3⟩ h4
      have hstep : connSysStep outc ⟨⟨conn, pr, att⟩, c1, c2⟩ true =
          ⟨(connStep outc ⟨conn, pr, att⟩ c1).1, (connStep outc ⟨conn, pr, att⟩ c1).2, c2⟩ := rfl
      rw [hstep]
      exact Or.inr ⟨hp.1.1, hp.1.2.1, hp.1.2.2, hp.2, h5⟩

theorem foldl_conn_inv {ε η : Type} (outc : Nat → Except ε η) (h : η)
    (houtc : outc 0 = .ok h) : ∀ (seq : List Bool) (s : ConnSys ε η),
    ConnInv h s → ConnInv h (seq.foldl (connSysStep outc) s) := by
  intro seq
  induction seq with
  | nil => intro s hs; exact hs
  | cons i t ih =>
    intro s hs
    exact ih (connSysStep outc s i) (connSysStep_inv outc h houtc s i hs)


/-- C9: if two callers run `connectDB` concurrently from the fresh state
(no connection, none in flight) and attempt 0 succeeds with handle `h`,
then under EVERY schedule after which both callers have returned, exactly
one underlying connection attempt was started and both callers returned
that same handle. -/
theorem connectDB_single_attempt_spec {ε η : Type} (outc : Nat → Except ε η) (h : η)
    (houtc : outc 0 = .ok h) (seq : List Bool) (r1 r2 : Except ε η)
    (h1 : (runConnSys outc seq).c1 = .done r1) (h2 : (runConnSys outc seq).c2 = .done r2) :
    (runConnSys outc seq).cache.attempts = 1 ∧ r1 = .ok h ∧ r2 = .ok h := by
  have hinv : ConnInv h (runConnSys outc seq) :=
    foldl_conn_inv outc h houtc seq connInit (Or.inl ⟨rfl, rfl, rfl, rfl, rfl⟩)
  rcases hinv with ⟨-, -, -, hc1, -⟩ | ⟨ha, -, -, hp1, hp2⟩
  · rw [h1] at hc1; exact absurd hc1 (by simp)
  · refine ⟨ha, ?_, ?_⟩
    · rcases hp1 with he | he | he <;> rw [h1] at he <;> simp_all
    · rcases hp2 with he | he | he <;> rw [h2] at he <;> simp_all


/-- C9 witness: the theorem applied to the concrete schedule in which
caller 1 runs to completion and caller 2 then arrives: one attempt,
both results equal to the handle. -/
theorem connectDB_single_attempt_witness :
    (runConnSys (fun _ => (.ok 7 : Except Unit Nat)) [true, true, false]).cache.attempts = 1 ∧
      (.ok 7 : Except Unit Nat) = .ok 7 ∧ (.ok 7 : Except Unit Nat) = .ok 7 :=
  connectDB_single_attempt_spec (fun _ => (.ok 7 : Except Unit Nat)) 7 rfl
    [true, true, false] (.ok 7) (.ok 7) rfl rfl
theorem is24h_length {l : List Char} (h : is24h l = true) : l.length = 5 := by
  rcases l with _ | ⟨c1, _ | ⟨c2, _ | ⟨c3, _ | ⟨c4, _ | ⟨c5, _ | ⟨c6, rest⟩⟩⟩⟩⟩⟩ <;>
    simp [is24h] at h
  rfl

theorem spec24_iff (l : List Char) : Spec24 l ↔ is24h l = true := by
  constructor
  · rintro ⟨h, m, hh, hm, rfl⟩
    have d1 : h / 10 ≤ 9 := by omega
    have d2 : h % 10 ≤ 9 := by omega
    have d3 : m / 10 ≤ 9 := by omega
    have d4 : m % 10 ≤ 9 := by omega
    show is24h [digitCh (h / 10), digitCh (h % 10), ':', digitCh (m / 10), digitCh (m % 10)] =
      true
    simp only [is24h, decide_eq_true_eq, isDigitC]
    rw [digitCh_toNat d1, digitCh_toNat d2, digitCh_toNat d3, digitCh_toNat d4]
    have hcolon : (':' : Char).toNat = 58 := rfl
    rw [hcolon]
    omega
  · intro h24
    rcases l with _ | ⟨c1, _ | ⟨c2, _ | ⟨c3, _ | ⟨c4, _ | ⟨c5, _ | ⟨c6, rest⟩⟩⟩⟩⟩⟩ <;>
      simp only [is24h, Bool.false_eq_true, decide_eq_true_eq, isDigitC] at h24
    obtain ⟨hc3, hh, hm1, hm2⟩ := h24
    refine ⟨(c1.toNat - 48) * 10 + (c2.toNat - 48), (c4.toNat - 48) * 10 + (c5.toNat - 48),
      by omega, by omega, ?_⟩
    show _ = [digitCh _, digitCh _, ':', digitCh _, digitCh _]
    have e1 : digitCh (((c1.toNat - 48) * 10 + (c2.toNat - 48)) / 10) = c1 :=
      digitCh_eq_of (by omega) (by omega)
    have e2 : digitCh (((c1.toNat - 48) * 10 + (c2.toNat - 48)) % 10) = c2 :=
      digitCh_eq_of (by omega) (by omega)
    have e3 : digitCh (((c4.toNat - 48) * 10 + (c5.toNat - 48)) / 10) = c4 :=
      digitCh_eq_of (by omega) (by omega)
    have e4 : digitCh (((c4.toNat - 48) * 10 + (c5.toNat - 48)) % 10) = c5 :=
      digitCh_eq_of (by omega) (by omega)
    have ec : c3 = ':' := char_eq_of_toNat (by rw [hc3]; rfl)
    rw [e1, e2, e3, e4, ← ec]

theorem digitCh_not_ws {h : Nat} (hh : h ≤ 9) : isJsWs (digitCh h) = false := by
  simp only [isJsWs, digitCh_toNat hh, decide_eq_false_iff_not]
  omega

theorem mer_not_ws {ca cm : Char} (hmer : merChars ca cm) : isJsWs ca = false := by
  obtain ⟨hca, -⟩ := hmer
  simp only [isJsWs, decide_eq_false_iff_not]
  omega

theorem hourCands_one (h : Nat) (hh : h ≤ 9) (rest : List Char) :
    hourCands (digitCh h :: ':' :: rest) = [(h, ':' :: rest)] := by
  have hcolon : (':' : Char).toNat = 58 := rfl
  simp only [hourCands, isDigitC, digitCh_toNat hh, hcolon]
  rw [if_neg (by omega), if_neg (by omega), if_pos (by omega)]
  simp only [List.nil_append]
  rw [show 48 + h - 48 = h by omega]

theorem hourCands_pad (h : Nat) (hh : h ≤ 9) (rest : List Char) :
    hourCands ('0' :: digitCh h :: ':' :: rest) =
      [(h, ':' :: rest), (0, digitCh h :: ':' :: rest)] := by
  have h0 : ('0' : Char).toNat = 48 := rfl
  simp only [hourCands, isDigitC, digitCh_toNat hh, h0]
  rw [if_neg (by omega), if_pos ⟨trivial, by omega, by omega⟩, if_pos (by omega)]
  simp only [List.nil_append, List.cons_append, List.cons.injEq, Prod.mk.injEq, and_true,
    true_and]
  omega

theorem hourCands_teen (h : Nat) (h10 : 10 ≤ h) (h12 : h ≤ 12) (rest : List Char) :
    hourCands ('1' :: digitCh (h - 10) :: ':' :: rest) =
      [(h, ':' :: rest), (1, digitCh (h - 10) :: ':' :: rest)] := by
  have h1 : ('1' : Char).toNat = 49 := rfl
  simp only [hourCands, isDigitC, digitCh_toNat (show h - 10 ≤ 9 by omega), h1]
  rw [if_pos ⟨trivial, by omega, by omega⟩, if_neg (by omega), if_pos (by omega)]
  simp only [List.nil_append, List.cons_append, List.cons.injEq, Prod.mk.injEq, and_true,
    true_and]
  omega

theorem tailParse_ok (m1 m2 : Char) (hm : minuteChars m1 m2) (wsr : List Char)
    (hwsr : allWs wsr) (ca cm : Char) (hmer : merChars ca cm) (wsr2 : List Char)
    (hwsr2 : allWs wsr2) :
    tailParse (':' :: m1 :: m2 :: (wsr ++ ca :: cm :: wsr2)) = some (m1, m2, isPMChar ca) := by
  obtain ⟨hm1a, hm1b, hm2⟩ := hm
  have hdw : (wsr ++ ca :: cm :: wsr2).dropWhile isJsWs = ca :: cm :: wsr2 := by
    rw [dropWhile_append_all hwsr, List.dropWhile_cons, if_neg (by simp [mer_not_ws hmer])]
  have hcolon : (':' : Char).toNat = 58 := rfl
  simp only [tailParse, hdw, hcolon, isDigitC]
  rw [if_pos ⟨trivial, hm1a, hm1b, hm2.1, hm2.2⟩,
    if_pos ⟨hmer.1, hmer.2, by simp only [List.all_eq_true]; exact hwsr2⟩]
  rfl

theorem twelve_parse_of_spec (wsL htxt : List Char) (h : Nat) (m1 m2 : Char) (wsr : List Char)
    (ca cm : Char) (wsr2 : List Char) (hwsL : allWs wsL) (hht : hourTextA h htxt)
    (hm : minuteChars m1 m2) (hwsr : allWs wsr) (hmer : merChars ca cm) (hwsr2 : allWs wsr2) :
    twelveHourParse (wsL ++ htxt ++ ':' :: m1 :: m2 :: (wsr ++ ca :: cm :: wsr2)) =
      some (h, m1, m2, isPMChar ca) := by
  unfold twelveHourParse
  have hwsL' : ∀ c ∈ wsL, isJsWs c = true := hwsL
  rw [List.append_assoc, dropWhile_append_all hwsL']
  have hTail := tailParse_ok m1 m2 hm wsr hwsr ca cm hmer wsr2 hwsr2
  rcases hht with ⟨hh, rfl⟩ | ⟨hh, rfl⟩ | ⟨h10, h12, rfl⟩
  · simp only [List.cons_append, List.nil_append]
    rw [List.dropWhile_cons, if_neg (by simp [digitCh_not_ws hh])]
    rw [hourCands_one h hh]
    simp [List.findSome?_cons, hTail]
  · simp only [List.cons_append, List.nil_append]
    rw [List.dropWhile_cons, if_neg (by decide)]
    rw [hourCands_pad h hh]
    simp [List.findSome?_cons, hTail]
  · simp only [List.cons_append, List.nil_append]
    rw [List.dropWhile_cons, if_neg (by decide)]
    rw [hourCands_teen h h10 h12]
    simp [List.findSome?_cons, hTail]

theorem code12_eq_convert (h : Nat) (pm : Bool) :
    (if pm = false ∧ (if pm = true ∧ h ≠ 12 then h + 12 else h) = 12 then 0
     else (if pm = true ∧ h ≠ 12 then h + 12 else h)) = convert12 h pm := by
  unfold convert12
  cases pm <;> simp <;> split_ifs <;> omega

theorem convert12_le {h : Nat} (hh : h ≤ 12) (pm : Bool) : convert12 h pm ≤ 23 := by
  unfold convert12
  split_ifs <;> omega

theorem tailParse_sound {rest : List Char} {m1 m2 : Char} {pm : Bool}
    (h : tailParse rest = some (m1, m2, pm)) :
    ∃ wsr ca cm wsr2, rest = ':' :: m1 :: m2 :: (wsr ++ ca :: cm :: wsr2) ∧
      minuteChars m1 m2 ∧ allWs wsr ∧ merChars ca cm ∧ allWs wsr2 ∧ pm = isPMChar ca := by
  rcases rest with _ | ⟨c, _ | ⟨x1, _ | ⟨x2, r2⟩⟩⟩
  · simp [tailParse] at h
  · simp [tailParse] at h
  · simp [tailParse] at h
  simp only [tailParse] at h
  split at h
  case isFalse => exact absurd h (by simp)
  case isTrue hcond =>
    split at h
    case h_2 => exact absurd h (by simp)
    case h_1 ca cm tail hdw =>
      split at h
      case isFalse => exact absurd h (by simp)
      case isTrue hcond2 =>
        simp only [Option.some.injEq, Prod.mk.injEq] at h
        obtain ⟨hx1, hx2, hpm⟩ := h
        subst hx1
        subst hx2
        obtain ⟨hc58, hm1a, hm1b, hm2⟩ := hcond
        have hc : c = ':' := char_eq_of_toNat (by rw [hc58]; rfl)
        subst hc
        obtain ⟨hca, hcm, htail⟩ := hcond2
        refine ⟨r2.takeWhile isJsWs, ca, cm, tail, ?_, ⟨hm1a, hm1b, hm2⟩, ?_, ⟨hca, hcm⟩,
          ?_, hpm.symm⟩
        · simp only [List.cons.injEq, true_and]
          rw [← hdw]
          exact (List.takeWhile_append_dropWhile _ _).symm
        · intro x hx
          exact List.mem_takeWhile_imp hx
        · intro x hx
          rw [List.all_eq_true] at htail
          exact htail x hx

theorem hourCands_sound {l2 : List Char} {hv : Nat} {rest : List Char}
    (hmem : (hv, rest) ∈ hourCands l2) :
    ∃ htxt, l2 = htxt ++ rest ∧ hourTextA hv htxt := by
  rcases l2 with _ | ⟨c1, _ | ⟨c2, rest12⟩⟩
  · simp [hourCands] at hmem
  · simp only [hourCands, List.nil_append] at hmem
    by_cases hC : isDigitC c1
    · rw [if_pos hC] at hmem
      simp only [List.mem_singleton, Prod.mk.injEq] at hmem
      obtain ⟨hhv, hrest⟩ := hmem
      subst hrest
      obtain ⟨hCa, hCb⟩ := hC
      refine ⟨[c1], by simp, Or.inl ⟨by omega, ?_⟩⟩
      have e1 : digitCh hv = c1 := digitCh_eq_of (by omega) (by omega)
      rw [← e1]
    · rw [if_neg hC] at hmem
      simp at hmem
  · simp only [hourCands] at hmem
    rw [List.mem_append, List.mem_append] at hmem
    rcases hmem with (hmem | hmem) | hmem
    · by_cases hA : c1.toNat = 49 ∧ 48 ≤ c2.toNat ∧ c2.toNat ≤ 50
      · rw [if_pos hA] at hmem
        simp only [List.mem_singleton, Prod.mk.injEq] at hmem
        obtain ⟨hhv, hrest⟩ := hmem
        subst hrest
        obtain ⟨hA1, hA2, hA3⟩ := hA
        refine ⟨[c1, c2], rfl, Or.inr (Or.inr ⟨by omega, by omega, ?_⟩)⟩
        have e1 : c1 = '1' := char_eq_of_toNat (by rw [hA1]; rfl)
        have e2 : digitCh (hv - 10) = c2 := digitCh_eq_of (by omega) (by omega)
        rw [e1, ← e2]
      · rw [if_neg hA] at hmem
        simp at hmem
    · by_cases hB : c1.toNat = 48 ∧ isDigitC c2
      · rw [if_pos hB] at hmem
        simp only [List.mem_singleton, Prod.mk.injEq] at hmem
        obtain ⟨hhv, hrest⟩ := hmem
        subst hrest
        obtain ⟨hB1, hB2, hB3⟩ := hB
        refine ⟨[c1, c2], rfl, Or.inr (Or.inl ⟨by omega, ?_⟩)⟩
        have e1 : c1 = '0' := char_eq_of_toNat (by rw [hB1]; rfl)
        have e2 : digitCh hv = c2 := digitCh_eq_of (by omega) (by omega)
        rw [e1, ← e2]
      · rw [if_neg hB] at hmem
        simp at hmem
    · by_cases hC : isDigitC c1
      · rw [if_pos hC] at hmem
        simp only [List.mem_singleton, Prod.mk.injEq] at hmem
        obtain ⟨hhv, hrest⟩ := hmem
        subst hrest
        obtain ⟨hCa, hCb⟩ := hC
        refine ⟨[c1], rfl, Or.inl ⟨by omega, ?_⟩⟩
        have e1 : digitCh hv = c1 := digitCh_eq_of (by omega) (by omega)
        rw [← e1]
      · rw [if_neg hC] at hmem
        simp at hmem

theorem twelveHourParse_sound (l : List Char) (h : Nat) (m1 m2 : Char) (pm : Bool)
    (hp : twelveHourParse l = some (h, m1, m2, pm)) : Spec12A l := by
  unfold twelveHourParse at hp
  obtain ⟨hr, hmem, hf⟩ := List.exists_of_findSome?_eq_some hp
  obtain ⟨hv, rest⟩ := hr
  cases ht : tailParse rest with
  | none => rw [ht] at hf; simp at hf
  | some t =>
    obtain ⟨mm1, mm2, pmm⟩ := t
    rw [ht] at hf
    simp only [Option.map_some', Option.some.injEq, Prod.mk.injEq] at hf
    obtain ⟨hhv, ht1, ht21, ht22⟩ := hf
    subst hhv
    subst ht1
    subst ht21
    subst ht22
    obtain ⟨wsr, ca, cm, wsr2, hrest, hmin, hwsr, hmer, hwsr2, hpm⟩ := tailParse_sound ht
    obtain ⟨htxt, hl2, hht⟩ := hourCands_sound hmem
    refine ⟨l.takeWhile isJsWs, htxt, hv, mm1, mm2, wsr, ca, cm, wsr2,
      fun x hx => List.mem_takeWhile_imp hx, hht, hmin, hwsr, hmer, hwsr2, ?_⟩
    rw [List.append_assoc, ← hrest, ← hl2]
    exact (List.takeWhile_append_dropWhile _ _).symm


/-- C1 (amended): after trimming, a canonical 24-hour `HH:mm` string
(hours 00-23, minutes 00-59) is returned unchanged; a 12-hour
`h:mm AM/PM` string with hour value 0 through 12 (hour spelled `0`-`9`,
`00`-`09`, or `10`-`12`), two-digit minutes 00-59, case-insensitive
meridiem and optional surrounding whitespace is converted with hour 0
treated exactly like hour 12 (0/12 AM give 00, 0/12 PM give 12, other PM
hours gain 12, zero-padded); every input of any other shape fails with
`InvalidTime`.  In particular `"3:30 pm"` gives `"15:30"`, `"12:00 am"`
gives `"00:00"`, `"00:15"` is returned unchanged, and `"13:61"` fails. -/
theorem normalizeTime_amended_spec :
    (∀ s : String, Spec24 (trimJS s).data → normalizeTime s = .ok (trimJS s)) ∧
    (∀ (s : String) (wsL htxt : List Char) (h : Nat) (m1 m2 : Char) (wsr : List Char)
      (ca cm : Char) (wsr2 : List Char),
      (trimJS s).data = wsL ++ htxt ++ ':' :: m1 :: m2 :: (wsr ++ ca :: cm :: wsr2) →
      allWs wsL → hourTextA h htxt → minuteChars m1 m2 → allWs wsr → merChars ca cm →
      allWs wsr2 →
      normalizeTime s =
        .ok (String.mk (twoDig (convert12 h (isPMChar ca)) ++ ':' :: [m1, m2]))) ∧
    (∀ s : String, ¬ Spec24 (trimJS s).data → ¬ Spec12A (trimJS s).data →
      normalizeTime s = .error .invalidTime) ∧
    normalizeTime "3:30 pm" = .ok "15:30" ∧
    normalizeTime "12:00 am" = .ok "00:00" ∧
    normalizeTime "00:15" = .ok "00:15" ∧
    normalizeTime "13:61" = .error .invalidTime := by
  refine ⟨?_, ?_, ?_, rfl, rfl, rfl, rfl⟩
  · intro s hs
    have h24 := (spec24_iff _).mp hs
    unfold normalizeTime
    rw [if_pos h24]
  · intro s wsL htxt h m1 m2 wsr ca cm wsr2 hdec hwsL hht hm hwsr hmer hwsr2
    have hx : 1 ≤ htxt.length := by
      rcases hht with ⟨-, rfl⟩ | ⟨-, rfl⟩ | ⟨-, -, rfl⟩ <;> simp
    have hh12 : h ≤ 12 := by
      rcases hht with ⟨hh, -⟩ | ⟨hh, -⟩ | ⟨-, hh, -⟩ <;> omega
    have hlen : is24h (trimJS s).data = false := by
      cases hb : is24h (trimJS s).data
      · rfl
      · exfalso
        have h5 := is24h_length hb
        rw [hdec] at h5
        simp only [List.length_append, List.length_cons] at h5
        omega
    unfold normalizeTime
    rw [if_neg (by simp [hlen]), hdec,
      twelve_parse_of_spec wsL htxt h m1 m2 wsr ca cm wsr2 hwsL hht hm hwsr hmer hwsr2]
    simp only []
    rw [code12_eq_convert h (isPMChar ca),
      padTwoL_eq_twoDig (by have := convert12_le hh12 (isPMChar ca); omega)]
  · intro s h24 h12
    have hb : is24h (trimJS s).data = false := by
      cases hbb : is24h (trimJS s).data
      · rfl
      · exact absurd ((spec24_iff _).mpr hbb) h24
    unfold normalizeTime
    rw [if_neg (by simp [hb])]
    cases hp : twelveHourParse (trimJS s).data with
    | none => rfl
    | some q =>
      obtain ⟨h, m1, m2, pm⟩ := q
      exact absurd (twelveHourParse_sound _ h m1 m2 pm hp) h12


/-- C1 counterexample: `"0:30 am"` is neither a 24-hour `HH:mm` string nor
a 12-hour time with hour between 1 and 12, so the claim as stated demands
an `InvalidTime` failure — but the normalizer accepts it (the hour group
`0?\d` of the regular expression matches the hour `0`) and returns
`"00:30"`. -/
theorem normalizeTime_hour_zero_cex :
    ¬ Spec24 (trimJS "0:30 am").data ∧ ¬ Spec12Claim (trimJS "0:30 am").data ∧
      normalizeTime "0:30 am" = .ok "00:30" := by
  have hdata : (trimJS "0:30 am").data = ['0', ':', '3', '0', ' ', 'a', 'm'] := rfl
  refine ⟨?_, ?_, rfl⟩
  · rintro ⟨h, m, -, -, heq⟩
    rw [hdata] at heq
    have hl := congrArg List.length heq
    simp [twoDig] at hl
  · rintro ⟨wsL, htxt, h, m1, m2, wsr, ca, cm, wsr2, h1, hwsL, hht, hmin, hwsr, hmer,
      hwsr2, heq⟩
    rw [hdata] at heq
    cases wsL with
    | cons w ws =>
      simp only [List.cons_append, List.cons.injEq] at heq
      obtain ⟨hw, -⟩ := heq
      have hws := hwsL w (List.mem_cons_self w ws)
      rw [← hw] at hws
      exact absurd hws (by decide)
    | nil =>
      rcases hht with ⟨hh, rfl⟩ | ⟨hh, rfl⟩ | ⟨h10, h12, rfl⟩
      · simp only [List.nil_append, List.cons_append, List.cons.injEq] at heq
        obtain ⟨h0, -⟩ := heq
        have ht := congrArg Char.toNat h0
        rw [digitCh_toNat hh] at ht
        have h48 : ('0' : Char).toNat = 48 := rfl
        rw [h48] at ht
        omega
      · simp only [List.nil_append, List.cons_append, List.cons.injEq] at heq
        obtain ⟨-, hcol, -⟩ := heq
        have ht := congrArg Char.toNat hcol
        rw [digitCh_toNat hh] at ht
        have h58 : (':' : Char).toNat = 58 := rfl
        rw [h58] at ht
        omega
      · simp only [List.nil_append, List.cons_append, List.cons.injEq] at heq
        obtain ⟨h01, -⟩ := heq
        exact absurd h01 (by decide)


/-- C1 witness: the amended theorem's 12-hour clause applied to the
concrete decomposition of `"07:45 pm"`: a zero-padded hour 7 with PM
converts to `"19:45"`. -/
theorem normalizeTime_amended_witness :
    normalizeTime "07:45 pm" = .ok "19:45" :=
  normalizeTime_amended_spec.2.1 "07:45 pm" [] ['0', '7'] 7 '4' '5' [' '] 'p' 'm' []
    rfl (by unfold allWs; decide) (by unfold hourTextA; decide)
    (by unfold minuteChars isDigitC; decide) (by unfold allWs; decide)
    (by unfold merChars; decide) (by unfold allWs; decide)
